import Mathlib

/-
Verification of the phonle word-guessing game core (game.js).

Strings from the JavaScript source are modelled as lists of characters
(`Str := List Char`); phoneme symbols and words are such lists.  The
mutable globals of the source (`targetWord`, `targetPhonemes`, `guesses`,
`currentGuess`, `currentRow`, `gameState`) are collected in a `RoundState`
structure; the keyboard map `phonemeStatus` is modelled as a total
function `Str → Status` (the source initialises every phoneme to the
string "default", which the total function represents directly).
-/

namespace Phonle

abbrev Str := List Char

/-- Feedback verdict per position, the strings "correct" / "present" /
"absent" in the source. -/
inductive Feedback where
  | correct
  | present
  | absent
deriving DecidableEq, Repr

/-- Keyboard status of a phoneme, the strings used in `phonemeStatus`. -/
inductive Status where
  | default
  | absent
  | present
  | correct
deriving DecidableEq, Repr

/-- Phase of the round, the values of the `gameState` global. -/
inductive Phase where
  | loading
  | playing
  | revealing
  | over
deriving DecidableEq, Repr

/-- The constant `MAX_GUESSES = 6` from the source. -/
def MAX_GUESSES : Nat := 6

/-- The constant `LINES_PER_FRAME = 2000` from the source. -/
def LINES_PER_FRAME : Nat := 2000

/-- One stored guess: `{ word: currentGuess, phonemes: guessPhonemes, feedback }`
as pushed onto `guesses` in `submitGuess`. -/
structure GuessRecord where
  word : Str
  phonemes : List Str
  feedback : List Feedback
deriving DecidableEq, Repr

/-- The round-level mutable globals of the source. -/
structure RoundState where
  targetWord : Str
  targetPhonemes : List Str
  guesses : List GuessRecord
  currentGuess : Str
  currentRow : Nat
  phase : Phase
deriving DecidableEq, Repr

/- ### 1. FeedbackEngine: the two passes of submitGuess (lines 187-207) -/

/-- First pass of `submitGuess`: positionwise, indices with
`guessPhonemes[i] === tempTarget[i]` are marked `correct` and the target
slot is nulled (`tempTarget[i] = null`); every other index keeps the
initial `absent` and its target slot keeps its phoneme.  Returns the
feedback array and the working copy `tempTarget` with `null` as `none`. -/
def pass1 : List Str → List Str → List Feedback × List (Option Str)
  | g :: gs, t :: ts =>
    let r := pass1 gs ts
    if g = t then (Feedback.correct :: r.1, none :: r.2)
    else (Feedback.absent :: r.1, some t :: r.2)
  | _, _ => ([], [])

/-- The statement `tempTarget[tempTarget.indexOf(p)] = null` of the second
pass: null out the first remaining slot holding phoneme `p`. -/
def eraseSlot : List (Option Str) → Str → List (Option Str)
  | [], _ => []
  | t :: ts, g => if t = some g then none :: ts else t :: eraseSlot ts g

/-- Second pass of `submitGuess` (lines 199-207): for each index not
already `correct`, if the guessed phoneme still occurs among the
non-nulled slots of `tempTarget` (`indexOf !== -1`) it is marked
`present` and that slot is nulled; the working slots are threaded
left to right exactly as the loop does. -/
def pass2 : List Str → List Feedback → List (Option Str) → List Feedback × List (Option Str)
  | g :: gs, f :: fs, tt =>
    if f ≠ Feedback.correct ∧ some g ∈ tt then
      let r := pass2 gs fs (eraseSlot tt g)
      (Feedback.present :: r.1, r.2)
    else
      let r := pass2 gs fs tt
      (f :: r.1, r.2)
  | _, fs, tt => (fs, tt)

/-- The complete guess-evaluation algorithm of `submitGuess`
(lines 187-207): initial all-`absent` feedback, pass 1, then pass 2. -/
def evaluate (guessPhonemes targetPhonemes : List Str) : List Feedback :=
  let r := pass1 guessPhonemes targetPhonemes
  (pass2 guessPhonemes r.1 r.2).1

/-- Number of positions whose guessed phoneme is `s` and whose feedback is
`correct` or `present` (the quantity bounded by the claim C1 invariant). -/
def markedCount (s : Str) : List Str → List Feedback → Nat
  | g :: gs, f :: fs =>
    (if g = s ∧ (f = Feedback.correct ∨ f = Feedback.present) then 1 else 0)
      + markedCount s gs fs
  | _, _ => 0

/- ### 2. KeyboardStatusTracker: the status-update loop (lines 212-222) -/

/-- The body of the status-update loop of `submitGuess`: given the current
status of the guessed phoneme and the feedback at this position, the new
status of that phoneme. -/
def updateStatus (currentStatus : Status) (f : Feedback) : Status :=
  if f = Feedback.correct then Status.correct
  else if f = Feedback.present ∧ currentStatus ≠ Status.correct then Status.present
  else if f = Feedback.absent ∧ currentStatus = Status.default then Status.absent
  else currentStatus

/-- The status-update loop of `submitGuess` (lines 212-222): positions are
visited left to right and the map is re-read at each position, which the
recursion models by threading the updated map. -/
def applyGuess (ps : Str → Status) : List Str → List Feedback → (Str → Status)
  | g :: gs, f :: fs =>
    applyGuess (fun q => if q = g then updateStatus (ps g) f else ps q) gs fs
  | _, _ => ps

/-- Applying the status-update loop for a whole sequence of accepted
guesses, oldest first. -/
def applyGuesses (ps : Str → Status) (rounds : List (List Str × List Feedback)) : Str → Status :=
  rounds.foldl (fun m r => applyGuess m r.1 r.2) ps

/-- Numeric rank of a keyboard status: default < absent < present < correct. -/
def statusRank : Status → Nat
  | Status.default => 0
  | Status.absent => 1
  | Status.present => 2
  | Status.correct => 3

/- ### 3. GameController: submitGuess and checkWinLoss -/

/-- Observable outcome of a call to `submitGuess`: the early return on an
empty buffer, the two `showError` paths, or an accepted guess. -/
inductive SubmitOutcome where
  | ignoredEmpty
  | errorUnknownWord
  | errorWrongLength (n : Nat)
  | accepted (feedback : List Feedback)
deriving DecidableEq, Repr

/-- The function `submitGuess` (lines 170-230), without the purely visual
calls (`animateGuess`, message box, shake).  `showError` clears
`currentGuess`, which both error branches reproduce.  The `dictionary`
global is passed as a parameter. -/
def submitGuess (dictionary : Str → Option (List Str)) (s : RoundState)
    (ps : Str → Status) : RoundState × (Str → Status) × SubmitOutcome :=
  if s.currentGuess.length = 0 then (s, ps, SubmitOutcome.ignoredEmpty)
  else
    match dictionary s.currentGuess with
    | none => ({ s with currentGuess := [] }, ps, SubmitOutcome.errorUnknownWord)
    | some guessPhonemes =>
      if guessPhonemes.length ≠ 5 then
        ({ s with currentGuess := [] }, ps, SubmitOutcome.errorWrongLength guessPhonemes.length)
      else
        let feedback := evaluate guessPhonemes s.targetPhonemes
        ({ s with
            phase := Phase.revealing,
            guesses := s.guesses ++ [⟨s.currentGuess, guessPhonemes, feedback⟩],
            currentGuess := [] },
          applyGuess ps guessPhonemes feedback,
          SubmitOutcome.accepted feedback)

/-- Outcome reported by `checkWinLoss`: the win message, the loss message
(which discloses the target word and its pronunciation), or continuation. -/
inductive Outcome where
  | won
  | lost (targetWord : Str) (targetPhonemes : List Str)
  | continueRound
deriving DecidableEq, Repr

/-- The function `checkWinLoss` (lines 278-295).  The source reads
`guesses[guesses.length - 1]`; with no guesses that dereferences
`undefined` and throws, modelled by `none`. -/
def checkWinLoss (s : RoundState) : Option (RoundState × Outcome) :=
  match s.guesses.getLast? with
  | none => none
  | some lastGuess =>
    if lastGuess.feedback.all (fun f => f = Feedback.correct) then
      some ({ s with phase := Phase.over }, Outcome.won)
    else if s.guesses.length = MAX_GUESSES then
      some ({ s with phase := Phase.over }, Outcome.lost s.targetWord s.targetPhonemes)
    else
      some ({ s with currentRow := s.currentRow + 1, phase := Phase.playing },
        Outcome.continueRound)

/- ### 4. PhoneticLexicon: line parsing and chunked loading (lines 52-114) -/

/-- Auxiliary for the split functions: prepend a character to the first
piece of a split result. -/
def consHead (c : Char) : List Str → List Str
  | t :: ts => (c :: t) :: ts
  | [] => [[c]]

/-- JavaScript `line.split('  ')`: split on each leftmost non-overlapping
occurrence of two consecutive spaces. -/
def splitTwoSpace : Str → List Str
  | [] => [[]]
  | [c] => [[c]]
  | c1 :: c2 :: cs =>
    if c1 = ' ' ∧ c2 = ' ' then [] :: splitTwoSpace cs
    else consHead c1 (splitTwoSpace (c2 :: cs))

/-- JavaScript `s.split(' ')`: split on each single space. -/
def splitSpace : Str → List Str
  | [] => [[]]
  | c :: cs =>
    if c = ' ' then [] :: splitSpace cs
    else consHead c (splitSpace cs)

/-- JavaScript `s.replace(/\d/g, '')`: remove every decimal digit. -/
def removeDigits (cs : Str) : Str := cs.filter (fun c => ¬ c.isDigit)

/-- JavaScript `line.startsWith(';;;')`. -/
def startsWithSemis : Str → Bool
  | ';' :: ';' :: ';' :: _ => true
  | _ => false

/-- The per-line parsing of `processDictionaryChunk` (lines 73-78): skip
empty and comment lines, split on two spaces, require exactly two parts,
strip digits from the phoneme field, split it on single spaces and drop
empty tokens.  Returns the word and its phoneme list, or `none` when the
line is skipped. -/
def parseLine (line : Str) : Option (Str × List Str) :=
  if line = [] ∨ startsWithSemis line then none
  else
    match splitTwoSpace line with
    | [word, phonemesField] =>
      some (word, (splitSpace (removeDigits phonemesField)).filter (fun p => p ≠ []))
    | _ => none

/-- The three accumulators mutated by `processDictionaryChunk`: the
`dictionary` object (modelled as a total function, absent keys mapped to
`none`), the insertion-ordered `phonemeSet`, and the `wordlist` array. -/
structure LoadState where
  dictionary : Str → Option (List Str)
  phonemeSet : List Str
  wordlist : List Str

/-- JavaScript `Set.add`: append if not already a member. -/
def setAdd (s : List Str) (p : Str) : List Str := if p ∈ s then s else s ++ [p]

/-- The loop body of `processDictionaryChunk` for one line (lines 71-88):
on a parsed record, overwrite `dictionary[word]`, add every phoneme to
the phoneme set, and push the word onto `wordlist` when it has exactly 5
phonemes and is in the frequency set. -/
def processLine (frequencySet : List Str) (st : LoadState) (line : Str) : LoadState :=
  match parseLine line with
  | none => st
  | some (word, phonemes) =>
    { dictionary := fun w => if w = word then some phonemes else st.dictionary w,
      phonemeSet := phonemes.foldl setAdd st.phonemeSet,
      wordlist :=
        if phonemes.length = 5 ∧ word ∈ frequencySet then st.wordlist ++ [word]
        else st.wordlist }

/-- Single-pass processing of a list of dictionary lines. -/
def processLines (frequencySet : List Str) (st : LoadState) (lines : List Str) : LoadState :=
  lines.foldl (processLine frequencySet) st

/-- Chunked processing of `processDictionaryChunk` (lines 68-99): take the
next `c` lines (for the source, `c = LINES_PER_FRAME`), process them,
then recurse on the rest — the `setTimeout` between batches only yields
control and is not represented.  For `c ≥ 1` each batch is
`(line :: rest).take c`; the source requires a positive batch size to
terminate. -/
def processDictionaryChunks (frequencySet : List Str) (c : Nat) (st : LoadState) :
    List Str → LoadState
  | [] => st
  | line :: rest =>
    processDictionaryChunks frequencySet c
      (processLines frequencySet st (line :: rest.take (c - 1)))
      (rest.drop (c - 1))
termination_by l => l.length
decreasing_by simp [List.length_drop]; omega

/-- Insertion of a string into a lexicographically sorted list, used to
model the JavaScript `Array.from(set).sort()` of `finishLoading`. -/
def insertSorted (x : Str) : List Str → List Str
  | [] => [x]
  | y :: ys => if decide (x < y) then x :: y :: ys else y :: insertSorted x ys

/-- Sorting of the phoneme set done by `finishLoading` (line 106). -/
def sortStrs (l : List Str) : List Str := l.foldr insertSorted []

/-- Result of the unconditional `startGame` call at the end of loading:
either a fresh round, or the `TypeError` crash the source hits when
`wordlist[...]` or `dictionary[targetWord]` is `undefined`
(`targetPhonemes.join` then throws).  `dataLoadError` is never produced
by the code; the constructor only states the outcome the specification
expects for a failed load, for comparison. -/
inductive LoadOutcome where
  | started (rs : RoundState)
  | crashed
  | dataLoadError
deriving DecidableEq, Repr

/-- The function `startGame` (lines 116-138) restricted to its
core-state effect: sample `wordlist[idx]` (the source uses
`Math.floor(Math.random() * wordlist.length)` for `idx`), look up its
phonemes, and reset the round.  No emptiness or membership check exists
in the source: a failed lookup is the `crashed` outcome. -/
def startGame (dictionary : Str → Option (List Str)) (wordlist : List Str)
    (idx : Nat) : LoadOutcome :=
  match wordlist.get? idx with
  | none => LoadOutcome.crashed
  | some w =>
    match dictionary w with
    | none => LoadOutcome.crashed
    | some ps =>
      LoadOutcome.started
        { targetWord := w, targetPhonemes := ps, guesses := [], currentGuess := [],
          currentRow := 0, phase := Phase.playing }

/-- The function `finishLoading` (lines 105-114) restricted to its
core-state effect: sort the phoneme alphabet and call `startGame`
unconditionally — the source performs no check on `wordlist` before the
call. -/
def finishLoading (st : LoadState) (idx : Nat) : List Str × LoadOutcome :=
  (sortStrs st.phonemeSet, startGame st.dictionary st.wordlist idx)

/-- The empty accumulators at the start of loading (`dictionary = {}`,
`phonemeSet = new Set()`, `wordlist = []`). -/
def initLoadState : LoadState :=
  { dictionary := fun _ => none, phonemeSet := [], wordlist := [] }

/-- The spec-side stripping of trailing stress digits from one phoneme
token: remove the maximal run of digits at the end of the token. -/
def dropTrailingDigits (t : Str) : Str :=
  (t.reverse.dropWhile Char.isDigit).reverse

/-- Joining tokens with single spaces, the shape of the phoneme field of
a well-formed dictionary record. -/
def joinSpaces : List Str → Str
  | [] => []
  | [t] => t
  | t :: ts => t ++ ' ' :: joinSpaces ts

/-- Presence of two consecutive spaces somewhere in a string, the
condition under which `splitTwoSpace` produces more than one piece. -/
def hasDoubleSpace : Str → Bool
  | c1 :: c2 :: cs => (c1 == ' ' && c2 == ' ') || hasDoubleSpace (c2 :: cs)
  | _ => false

/-- A concrete round used to instantiate theorems with hypotheses. -/
def exampleRound : RoundState :=
  { targetWord := ['X'], targetPhonemes := [['X']], guesses := [],
    currentGuess := ['A'], currentRow := 0, phase := Phase.playing }

/-- A concrete well-formed dictionary line, AB followed by two spaces and
five phonemes. -/
def dictLineExample : Str :=
  ['A', 'B', ' ', ' ', 'C', ' ', 'D', ' ', 'E', ' ', 'F', ' ', 'G']

/-- A loader state whose candidate word list is empty. -/
def emptyWordlistLoad : LoadState :=
  { dictionary := fun _ => none, phonemeSet := [['A']], wordlist := [] }

/- ### Lemmas about the feedback engine -/

/-- Nulling the first slot holding `g` removes exactly one occurrence of
`some g` from the slot list, and touches no other value. -/
lemma count_eraseSlot (tt : List (Option Str)) (g s : Str) (h : some g ∈ tt) :
    tt.count (some s) = (eraseSlot tt g).count (some s) + (if g = s then 1 else 0) := by
  induction tt with
  | nil => simp at h
  | cons t ts ih =>
    by_cases htg : t = some g
    · subst htg
      simp only [eraseSlot, if_pos rfl]
      by_cases hgs : g = s <;>
        simp [List.count_cons, hgs]
    · have hmem : some g ∈ ts := by
        rcases List.mem_cons.mp h with h1 | h1
        · exact absurd h1.symm htg
        · exact h1
      simp only [eraseSlot, if_neg htg]
      rw [List.count_cons, List.count_cons, ih hmem]
      omega

/-- Unfolding of pass 1 on a pair of leading symbols. -/
lemma pass1_cons (a b : Str) (gs ts : List Str) :
    pass1 (a :: gs) (b :: ts)
      = if a = b then (Feedback.correct :: (pass1 gs ts).1, none :: (pass1 gs ts).2)
        else (Feedback.absent :: (pass1 gs ts).1, some b :: (pass1 gs ts).2) := by
  rw [pass1]

/-- Unfolding of pass 2 on a leading guess symbol and feedback entry. -/
lemma pass2_cons (a : Str) (f : Feedback) (gs : List Str) (fs : List Feedback)
    (tt : List (Option Str)) :
    pass2 (a :: gs) (f :: fs) tt
      = if f ≠ Feedback.correct ∧ some a ∈ tt then
          (Feedback.present :: (pass2 gs fs (eraseSlot tt a)).1,
            (pass2 gs fs (eraseSlot tt a)).2)
        else (f :: (pass2 gs fs tt).1, (pass2 gs fs tt).2) := by
  rw [pass2]

/-- Unfolding of the marked-position count on a leading position. -/
lemma markedCount_cons (s a : Str) (f : Feedback) (gs : List Str) (fs : List Feedback) :
    markedCount s (a :: gs) (f :: fs)
      = (if a = s ∧ (f = Feedback.correct ∨ f = Feedback.present) then 1 else 0)
        + markedCount s gs fs := by
  rw [markedCount]

/-- Invariant of pass 1: for each symbol `s`, the positions marked
`correct` with guess symbol `s` plus the remaining slots holding `s`
account exactly for the occurrences of `s` in the target. -/
lemma pass1_invariant (s : Str) :
    ∀ (g t : List Str), g.length = t.length →
      markedCount s g (pass1 g t).1 + (pass1 g t).2.count (some s) = t.count s := by
  intro g
  induction g with
  | nil =>
    intro t h
    cases t with
    | nil => simp [pass1, markedCount]
    | cons b ts => simp at h
  | cons a gs ih =>
    intro t h
    cases t with
    | nil => simp at h
    | cons b ts =>
      have hlen : gs.length = ts.length := by simpa using h
      have ihgt := ih ts hlen
      rw [pass1_cons]
      by_cases hab : a = b
      · subst hab
        rw [if_pos rfl, markedCount_cons]
        rw [List.count_cons, List.count_cons]
        by_cases has : a = s <;> simp [has] <;> omega
      · rw [if_neg hab, markedCount_cons]
        rw [List.count_cons, List.count_cons]
        have hfa : ¬ (a = s ∧ (Feedback.absent = Feedback.correct
            ∨ Feedback.absent = Feedback.present)) := by simp
        rw [if_neg hfa]
        by_cases hbs : b = s <;> simp [hbs] <;> omega

/-- Feedback component of the pass 2 unfolding. -/
lemma pass2_cons_fst (a : Str) (f : Feedback) (gs : List Str) (fs : List Feedback)
    (tt : List (Option Str)) :
    (pass2 (a :: gs) (f :: fs) tt).1
      = if f ≠ Feedback.correct ∧ some a ∈ tt then
          Feedback.present :: (pass2 gs fs (eraseSlot tt a)).1
        else f :: (pass2 gs fs tt).1 := by
  rw [pass2_cons]; split <;> rfl

/-- Slot component of the pass 2 unfolding. -/
lemma pass2_cons_snd (a : Str) (f : Feedback) (gs : List Str) (fs : List Feedback)
    (tt : List (Option Str)) :
    (pass2 (a :: gs) (f :: fs) tt).2
      = if f ≠ Feedback.correct ∧ some a ∈ tt then (pass2 gs fs (eraseSlot tt a)).2
        else (pass2 gs fs tt).2 := by
  rw [pass2_cons]; split <;> rfl

/-- Feedback component of pass 2 when the guess is exhausted first. -/
lemma pass2_nil_fb (g : List Str) (tt : List (Option Str)) :
    pass2 g ([] : List Feedback) tt = ([], tt) := by
  cases g <;> rw [pass2] <;> intro g1 gs1 f1 fs1 h1 h2 <;> simp at h2

/-- Invariant of pass 2: marking `present` positions consumes slots, so
the total of marked positions for `s` plus remaining `s` slots never
grows. -/
lemma pass2_invariant (s : Str) :
    ∀ (g : List Str) (fb : List Feedback) (tt : List (Option Str)),
      markedCount s g (pass2 g fb tt).1 + (pass2 g fb tt).2.count (some s)
        ≤ markedCount s g fb + tt.count (some s) := by
  intro g
  induction g with
  | nil => intro fb tt; simp [pass2, markedCount]
  | cons a gs ih =>
    intro fb tt
    cases fb with
    | nil => simp [pass2_nil_fb, markedCount]
    | cons f fs =>
      rw [pass2_cons_fst, pass2_cons_snd, markedCount_cons]
      by_cases hcond : f ≠ Feedback.correct ∧ some a ∈ tt
      · rw [if_pos hcond, if_pos hcond]
        have herase := count_eraseSlot tt a s hcond.2
        have ihx := ih fs (eraseSlot tt a)
        rw [markedCount_cons]
        by_cases has : a = s
        · rw [if_pos has] at herase
          rw [if_pos (And.intro has (Or.inr rfl))]
          split_ifs <;> omega
        · rw [if_neg has] at herase
          rw [if_neg (fun hh => has hh.1)]
          split_ifs <;> omega
      · rw [if_neg hcond, if_neg hcond]
        have ihx := ih fs tt
        rw [markedCount_cons]
        omega

/-- C1: for every pair of 5-symbol phoneme sequences G (guess) and T
(target) and every phoneme symbol s, the number of positions in the
feedback computed by the guess-evaluation algorithm that are marked
correct or present and whose guess symbol is s never exceeds the number
of occurrences of s in T. -/
theorem feedback_marked_le_target_count (g t : List Str) (s : Str)
    (hg : g.length = 5) (ht : t.length = 5) :
    markedCount s g (evaluate g t) ≤ t.count s := by
  have h1 := pass1_invariant s g t (by omega)
  have h2 := pass2_invariant s g (pass1 g t).1 (pass1 g t).2
  have hev : evaluate g t = (pass2 g (pass1 g t).1 (pass1 g t).2).1 := rfl
  rw [hev]
  omega

/-- Witness for C1 at the duplicate-phoneme example: guess AABCD against
target ABBCC with symbol A. -/
theorem feedback_marked_le_target_count_witness :
    markedCount ['A']
        [['A'], ['A'], ['B'], ['C'], ['D']]
        (evaluate [['A'], ['A'], ['B'], ['C'], ['D']] [['A'], ['B'], ['B'], ['C'], ['C']])
      ≤ ([['A'], ['B'], ['B'], ['C'], ['C']] : List Str).count ['A'] :=
  feedback_marked_le_target_count
    [['A'], ['A'], ['B'], ['C'], ['D']] [['A'], ['B'], ['B'], ['C'], ['C']] ['A']
    (by decide) (by decide)

/-- C2: evaluating the guess [A,A,B,C,D] against the target [A,B,B,C,C]
with the two-pass algorithm yields exactly
[correct, absent, correct, correct, absent]. -/
theorem evaluate_duplicate_case :
    evaluate [['A'], ['A'], ['B'], ['C'], ['D']] [['A'], ['B'], ['B'], ['C'], ['C']]
      = [Feedback.correct, Feedback.absent, Feedback.correct, Feedback.correct,
          Feedback.absent] := by
  decide

/- ### Lemmas about the keyboard status tracker -/

/-- One status update never lowers the rank. -/
lemma statusRank_le_updateStatus :
    ∀ (cur : Status) (f : Feedback), statusRank cur ≤ statusRank (updateStatus cur f) := by
  intro cur f
  cases cur <;> cases f <;> decide

/-- The maximal rank characterises the `correct` status. -/
lemma statusRank_eq_three :
    ∀ st : Status, 3 ≤ statusRank st → st = Status.correct := by
  intro st
  cases st <;> decide

/-- Applying one guess never lowers any phoneme's rank. -/
lemma statusRank_le_applyGuess (q : Str) :
    ∀ (gs : List Str) (fs : List Feedback) (ps : Str → Status),
      statusRank (ps q) ≤ statusRank (applyGuess ps gs fs q) := by
  intro gs
  induction gs with
  | nil => intro fs ps; cases fs <;> simp [applyGuess]
  | cons g gs ih =>
    intro fs ps
    cases fs with
    | nil => simp [applyGuess]
    | cons f fs =>
      have hstep : statusRank (ps q)
          ≤ statusRank ((fun q2 => if q2 = g then updateStatus (ps g) f else ps q2) q) := by
        by_cases hq : q = g
        · subst hq; simp only [if_pos rfl]; exact statusRank_le_updateStatus (ps q) f
        · simp only [if_neg hq]; exact Nat.le_refl _
      calc statusRank (ps q)
          ≤ statusRank ((fun q2 => if q2 = g then updateStatus (ps g) f else ps q2) q) := hstep
        _ ≤ statusRank (applyGuess (fun q2 => if q2 = g then updateStatus (ps g) f else ps q2)
              gs fs q) := ih fs (fun q2 => if q2 = g then updateStatus (ps g) f else ps q2)
        _ = statusRank (applyGuess ps (g :: gs) (f :: fs) q) := rfl

/-- C3: across any sequence of accepted guesses, a phoneme's keyboard
status rank (default < absent < present < correct) never decreases;
once correct it stays correct; a present verdict never overwrites
correct, and an absent verdict leaves any non-default status unchanged. -/
theorem keyboard_status_monotone (ps : Str → Status)
    (rounds : List (List Str × List Feedback)) (q : Str) :
    statusRank (ps q) ≤ statusRank (applyGuesses ps rounds q)
    ∧ (ps q = Status.correct → applyGuesses ps rounds q = Status.correct)
    ∧ (∀ f, updateStatus Status.correct f = Status.correct)
    ∧ updateStatus Status.present Feedback.absent = Status.present
    ∧ updateStatus Status.correct Feedback.absent = Status.correct := by
  have hrank : statusRank (ps q) ≤ statusRank (applyGuesses ps rounds q) := by
    induction rounds generalizing ps with
    | nil => simp [applyGuesses]
    | cons r rounds ih =>
      calc statusRank (ps q)
          ≤ statusRank (applyGuess ps r.1 r.2 q) := statusRank_le_applyGuess q r.1 r.2 ps
        _ ≤ statusRank (applyGuesses (applyGuess ps r.1 r.2) rounds q) := ih _
        _ = statusRank (applyGuesses ps (r :: rounds) q) := rfl
  refine ⟨hrank, ?_, fun f => by cases f <;> decide, by decide, by decide⟩
  intro hc
  apply statusRank_eq_three
  rw [hc] at hrank
  exact hrank

/-- Witness for C3 at a concrete map and guess sequence: the phoneme A is
present after guess one and stays at least present after an absent
verdict in guess two. -/
theorem keyboard_status_monotone_witness :
    statusRank ((fun _ => Status.present) ['A'])
        ≤ statusRank (applyGuesses (fun _ => Status.present)
            [([['A']], [Feedback.absent])] ['A'])
    ∧ ((fun _ => Status.present) ['A'] = Status.correct →
        applyGuesses (fun _ => Status.present) [([['A']], [Feedback.absent])] ['A']
          = Status.correct)
    ∧ (∀ f, updateStatus Status.correct f = Status.correct)
    ∧ updateStatus Status.present Feedback.absent = Status.present
    ∧ updateStatus Status.correct Feedback.absent = Status.correct :=
  keyboard_status_monotone (fun _ => Status.present) [([['A']], [Feedback.absent])] ['A']

/- ### The row-finalization step -/

/-- C4: after a submitted guess, row finalization marks the round won when
the last feedback row is all correct; otherwise marks it lost after 6
guesses, disclosing the target word and pronunciation; otherwise returns
to playing with the row index incremented. -/
theorem checkWinLoss_cases (s : RoundState) (lg : GuessRecord)
    (h : s.guesses.getLast? = some lg) :
    checkWinLoss s = some (
      if lg.feedback.all (fun f => f = Feedback.correct) then
        ({ s with phase := Phase.over }, Outcome.won)
      else if s.guesses.length = 6 then
        ({ s with phase := Phase.over }, Outcome.lost s.targetWord s.targetPhonemes)
      else
        ({ s with currentRow := s.currentRow + 1, phase := Phase.playing },
          Outcome.continueRound)) := by
  unfold checkWinLoss
  rw [h]
  simp only [MAX_GUESSES]
  split_ifs <;> rfl

/-- Witness for C4: a first-guess all-correct round is marked won. -/
theorem checkWinLoss_cases_witness :
    checkWinLoss
        { targetWord := ['X'], targetPhonemes := [['X']],
          guesses := [⟨['X'], [['X']], [Feedback.correct]⟩],
          currentGuess := [], currentRow := 0, phase := Phase.revealing }
      = some
        ({ targetWord := ['X'], targetPhonemes := [['X']],
           guesses := [⟨['X'], [['X']], [Feedback.correct]⟩],
           currentGuess := [], currentRow := 0, phase := Phase.over }, Outcome.won) := by
  have h := checkWinLoss_cases
    { targetWord := ['X'], targetPhonemes := [['X']],
      guesses := [⟨['X'], [['X']], [Feedback.correct]⟩],
      currentGuess := [], currentRow := 0, phase := Phase.revealing }
    ⟨['X'], [['X']], [Feedback.correct]⟩ rfl
  simpa using h

/- ### Chunked loading -/

/-- Processing a concatenation of line lists is processing them in
sequence. -/
lemma processLines_append (freq : List Str) (st : LoadState) (a b : List Str) :
    processLines freq (processLines freq st a) b = processLines freq st (a ++ b) := by
  simp [processLines, List.foldl_append]

/-- Chunked processing equals single-pass processing, for every chunk
parameter. -/
lemma chunks_eq_single (freq : List Str) (c : Nat) :
    ∀ (lines : List Str) (st : LoadState),
      processDictionaryChunks freq c st lines = processLines freq st lines := by
  have key : ∀ (n : Nat) (lines : List Str), lines.length ≤ n → ∀ st : LoadState,
      processDictionaryChunks freq c st lines = processLines freq st lines := by
    intro n
    induction n with
    | zero =>
      intro lines hl st
      have : lines = [] := List.eq_nil_of_length_eq_zero (Nat.le_zero.mp hl)
      subst this
      rw [processDictionaryChunks]
      simp [processLines]
    | succ n ih =>
      intro lines hl st
      cases lines with
      | nil =>
        rw [processDictionaryChunks]
        simp [processLines]
      | cons line rest =>
        rw [processDictionaryChunks]
        rw [ih (rest.drop (c - 1)) (by simp at hl ⊢; omega)]
        rw [processLines_append]
        rw [List.cons_append, List.take_append_drop]
  intro lines st
  exact key lines.length lines (Nat.le_refl _) st

/-- C5: for every frequency set, batch size, initial accumulators and
dictionary source, chunked processing (control is yielded between
batches, which only delays the later batches) produces a lexicon map,
phoneme set, sorted phoneme alphabet and candidate word list identical
to single-pass processing of the same lines. -/
theorem chunked_load_equals_single_pass (freq : List Str) (c : Nat) (st : LoadState)
    (lines : List Str) (hc : 0 < c) :
    (processDictionaryChunks freq c st lines).dictionary
        = (processLines freq st lines).dictionary
    ∧ (processDictionaryChunks freq c st lines).phonemeSet
        = (processLines freq st lines).phonemeSet
    ∧ sortStrs (processDictionaryChunks freq c st lines).phonemeSet
        = sortStrs (processLines freq st lines).phonemeSet
    ∧ (processDictionaryChunks freq c st lines).wordlist
        = (processLines freq st lines).wordlist := by
  rw [chunks_eq_single freq c lines st]
  exact ⟨rfl, rfl, rfl, rfl⟩

/-- Witness for C5 at batch size 2 over a three-line source. -/
theorem chunked_load_equals_single_pass_witness :
    (processDictionaryChunks [['A','B']] 2 initLoadState
          [['A','B',' ',' ','C',' ','D'], [';',';',';','X'], ['E',' ',' ','F']]).dictionary
        = (processLines [['A','B']] initLoadState
          [['A','B',' ',' ','C',' ','D'], [';',';',';','X'], ['E',' ',' ','F']]).dictionary
    ∧ (processDictionaryChunks [['A','B']] 2 initLoadState
          [['A','B',' ',' ','C',' ','D'], [';',';',';','X'], ['E',' ',' ','F']]).phonemeSet
        = (processLines [['A','B']] initLoadState
          [['A','B',' ',' ','C',' ','D'], [';',';',';','X'], ['E',' ',' ','F']]).phonemeSet
    ∧ sortStrs (processDictionaryChunks [['A','B']] 2 initLoadState
          [['A','B',' ',' ','C',' ','D'], [';',';',';','X'], ['E',' ',' ','F']]).phonemeSet
        = sortStrs (processLines [['A','B']] initLoadState
          [['A','B',' ',' ','C',' ','D'], [';',';',';','X'], ['E',' ',' ','F']]).phonemeSet
    ∧ (processDictionaryChunks [['A','B']] 2 initLoadState
          [['A','B',' ',' ','C',' ','D'], [';',';',';','X'], ['E',' ',' ','F']]).wordlist
        = (processLines [['A','B']] initLoadState
          [['A','B',' ',' ','C',' ','D'], [';',';',';','X'], ['E',' ',' ','F']]).wordlist :=
  chunked_load_equals_single_pass [['A','B']] 2 initLoadState
    [['A','B',' ',' ','C',' ','D'], [';',';',';','X'], ['E',' ',' ','F']] (by decide)

/- ### Error paths of submitGuess -/

/-- C6: for a non-empty guess that is unknown to the lexicon or resolves
to a non-5-phoneme entry, submitGuess reports the error as a value,
leaves the phase and every other round field unchanged, appends no guess
record, leaves the keyboard map untouched, and clears the input buffer. -/
theorem submitGuess_error_paths (dictionary : Str → Option (List Str)) (s : RoundState)
    (ps : Str → Status)
    (hne : s.currentGuess ≠ [])
    (herr : dictionary s.currentGuess = none
      ∨ ∃ gp, dictionary s.currentGuess = some gp ∧ gp.length ≠ 5) :
    (submitGuess dictionary s ps).1.phase = s.phase
    ∧ (submitGuess dictionary s ps).1.guesses = s.guesses
    ∧ (submitGuess dictionary s ps).1.currentGuess = []
    ∧ (submitGuess dictionary s ps).1.targetWord = s.targetWord
    ∧ (submitGuess dictionary s ps).1.targetPhonemes = s.targetPhonemes
    ∧ (submitGuess dictionary s ps).1.currentRow = s.currentRow
    ∧ (submitGuess dictionary s ps).2.1 = ps
    ∧ ((submitGuess dictionary s ps).2.2 = SubmitOutcome.errorUnknownWord
       ∨ ∃ n, n ≠ 5 ∧ (submitGuess dictionary s ps).2.2
            = SubmitOutcome.errorWrongLength n) := by
  have hlen : ¬ s.currentGuess.length = 0 := by
    simpa using hne
  rcases herr with hnone | ⟨gp, hgp, hlen5⟩
  · have hsg : submitGuess dictionary s ps
        = ({ s with currentGuess := [] }, ps, SubmitOutcome.errorUnknownWord) := by
      simp [submitGuess, hlen, hnone]
    rw [hsg]
    exact ⟨rfl, rfl, rfl, rfl, rfl, rfl, rfl, Or.inl rfl⟩
  · have hsg : submitGuess dictionary s ps
        = ({ s with currentGuess := [] }, ps,
            SubmitOutcome.errorWrongLength gp.length) := by
      simp [submitGuess, hlen, hgp, hlen5]
    rw [hsg]
    exact ⟨rfl, rfl, rfl, rfl, rfl, rfl, rfl, Or.inr ⟨gp.length, hlen5, rfl⟩⟩

/-- Witness for C6 with an unknown word: the dictionary is empty and the
buffer holds A. -/
theorem submitGuess_error_paths_witness :
    (submitGuess (fun _ => none) exampleRound (fun _ => Status.default)).1.phase
        = exampleRound.phase
    ∧ (submitGuess (fun _ => none) exampleRound (fun _ => Status.default)).1.guesses
        = exampleRound.guesses
    ∧ (submitGuess (fun _ => none) exampleRound (fun _ => Status.default)).1.currentGuess
        = []
    ∧ (submitGuess (fun _ => none) exampleRound (fun _ => Status.default)).1.targetWord
        = exampleRound.targetWord
    ∧ (submitGuess (fun _ => none) exampleRound (fun _ => Status.default)).1.targetPhonemes
        = exampleRound.targetPhonemes
    ∧ (submitGuess (fun _ => none) exampleRound (fun _ => Status.default)).1.currentRow
        = exampleRound.currentRow
    ∧ (submitGuess (fun _ => none) exampleRound (fun _ => Status.default)).2.1
        = (fun _ => Status.default)
    ∧ ((submitGuess (fun _ => none) exampleRound (fun _ => Status.default)).2.2
          = SubmitOutcome.errorUnknownWord
       ∨ ∃ n, n ≠ 5 ∧ (submitGuess (fun _ => none) exampleRound (fun _ => Status.default)).2.2
          = SubmitOutcome.errorWrongLength n) :=
  submitGuess_error_paths (fun _ => none) exampleRound (fun _ => Status.default)
    (by decide) (Or.inl rfl)

/- ### Lemmas about the line splits -/

/-- A string without spaces is one single-space piece. -/
lemma splitSpace_no_space (cs : Str) (h : ' ' ∉ cs) : splitSpace cs = [cs] := by
  induction cs with
  | nil => rfl
  | cons c cs ih =>
    have hc : c ≠ ' ' := fun he => h (he ▸ List.mem_cons_self c cs)
    have h2 : ' ' ∉ cs := fun hm => h (List.mem_cons_of_mem c hm)
    rw [splitSpace, if_neg hc, ih h2]
    rfl

/-- Splitting on single spaces peels off a space-free leading token. -/
lemma splitSpace_append_space (t r : Str) (h : ' ' ∉ t) :
    splitSpace (t ++ ' ' :: r) = t :: splitSpace r := by
  induction t with
  | nil =>
    rw [List.nil_append, splitSpace, if_pos rfl]
  | cons c t ih =>
    have hc : c ≠ ' ' := fun he => h (he ▸ List.mem_cons_self c t)
    have h2 : ' ' ∉ t := fun hm => h (List.mem_cons_of_mem c hm)
    rw [List.cons_append, splitSpace, if_neg hc, ih h2]
    rfl

/-- Splitting on single spaces inverts joining with single spaces when no
token contains a space. -/
lemma splitSpace_join (tokens : List Str) (hne : tokens ≠ [])
    (h : ∀ t ∈ tokens, ' ' ∉ t) : splitSpace (joinSpaces tokens) = tokens := by
  induction tokens with
  | nil => exact absurd rfl hne
  | cons t ts ih =>
    cases ts with
    | nil => exact splitSpace_no_space t (h t (List.mem_cons_self t []))
    | cons t2 ts2 =>
      have hj : joinSpaces (t :: t2 :: ts2) = t ++ ' ' :: joinSpaces (t2 :: ts2) := rfl
      rw [hj, splitSpace_append_space t _ (h t (List.mem_cons_self t _)),
        ih (by simp) (fun x hx => h x (List.mem_cons_of_mem t hx))]

/-- A string without two consecutive spaces is one two-space piece. -/
lemma splitTwoSpace_no_double (cs : Str) (h : hasDoubleSpace cs = false) :
    splitTwoSpace cs = [cs] := by
  induction cs with
  | nil => rfl
  | cons c cs ih =>
    cases cs with
    | nil => rfl
    | cons d cs2 =>
      rw [hasDoubleSpace] at h
      have hcd : ¬ (c = ' ' ∧ d = ' ') := by
        intro hpair
        simp [hpair.1, hpair.2] at h
      have h2 : hasDoubleSpace (d :: cs2) = false := by
        rcases Bool.or_eq_false_iff.mp h with ⟨_, h2⟩
        exact h2
      rw [splitTwoSpace, if_neg hcd, ih h2]
      rfl

/-- A string without spaces has no two consecutive spaces. -/
lemma no_space_no_double (cs : Str) (h : ' ' ∉ cs) : hasDoubleSpace cs = false := by
  induction cs with
  | nil => rfl
  | cons c cs ih =>
    cases cs with
    | nil => rfl
    | cons d cs2 =>
      have hc : (c == ' ') = false := by
        simp only [beq_eq_false_iff_ne, ne_eq]
        exact fun he => h (he ▸ List.mem_cons_self c _)
      have h2 := ih (fun hm => h (List.mem_cons_of_mem c hm))
      rw [hasDoubleSpace]
      simp [hc, h2]

/-- Prepending a space-free string preserves the absence of two
consecutive spaces. -/
lemma no_double_append (r : Str) (hr : hasDoubleSpace r = false) :
    ∀ w : Str, ' ' ∉ w → hasDoubleSpace (w ++ r) = false := by
  intro w
  induction w with
  | nil => intro _; simpa using hr
  | cons c w ih =>
    intro hw
    have hc : (c == ' ') = false := by
      simp only [beq_eq_false_iff_ne, ne_eq]
      exact fun he => hw (he ▸ List.mem_cons_self c _)
    have h2 := ih (fun hm => hw (List.mem_cons_of_mem c hm))
    rw [List.cons_append]
    cases hweq : w ++ r with
    | nil => rfl
    | cons d rest =>
      rw [hweq] at h2
      rw [hasDoubleSpace]
      simp [hc, h2]

/-- The join of a list starting with a nonempty token starts with that
token's first character. -/
lemma join_head_cons (x : Char) (t2 : Str) (ts : List Str) :
    ∃ r : Str, joinSpaces ((x :: t2) :: ts) = x :: r := by
  cases ts with
  | nil => exact ⟨t2, rfl⟩
  | cons a ts2 => exact ⟨t2 ++ ' ' :: joinSpaces (a :: ts2), rfl⟩

/-- The single-space join of nonempty space-free tokens has no two
consecutive spaces. -/
lemma join_no_double (tokens : List Str)
    (h : ∀ t ∈ tokens, t ≠ [] ∧ ' ' ∉ t) :
    hasDoubleSpace (joinSpaces tokens) = false := by
  induction tokens with
  | nil => rfl
  | cons t ts ih =>
    cases ts with
    | nil => exact no_space_no_double t (h t (List.mem_cons_self t _)).2
    | cons t2 ts2 =>
      have hj : joinSpaces (t :: t2 :: ts2) = t ++ ' ' :: joinSpaces (t2 :: ts2) := rfl
      rw [hj]
      have hrec := ih (fun x hx => h x (List.mem_cons_of_mem t hx))
      have ht2 := h t2 (List.mem_cons_of_mem t (List.mem_cons_self t2 ts2))
      have hmid : hasDoubleSpace (' ' :: joinSpaces (t2 :: ts2)) = false := by
        cases t2 with
        | nil => exact absurd rfl ht2.1
        | cons x t2tail =>
          obtain ⟨r, hr⟩ := join_head_cons x t2tail ts2
          rw [hr] at hrec ⊢
          have hx : (x == ' ') = false := by
            simp only [beq_eq_false_iff_ne, ne_eq]
            exact fun he => ht2.2 (he ▸ List.mem_cons_self x _)
          rw [hasDoubleSpace]
          simp [hx, hrec]
      exact no_double_append _ hmid t (h t (List.mem_cons_self t _)).2

/-- Splitting on double spaces peels off a space-free leading word
followed by exactly two spaces. -/
lemma splitTwoSpace_word (r : Str) : ∀ w : Str, ' ' ∉ w →
    splitTwoSpace (w ++ ' ' :: ' ' :: r) = w :: splitTwoSpace r := by
  intro w
  induction w with
  | nil =>
    intro _
    rw [List.nil_append, splitTwoSpace, if_pos ⟨rfl, rfl⟩]
  | cons c w ih =>
    intro hw
    have hc : c ≠ ' ' := fun he => hw (he ▸ List.mem_cons_self c _)
    have ih2 := ih (fun hm => hw (List.mem_cons_of_mem c hm))
    rw [List.cons_append]
    cases w with
    | nil =>
      rw [List.nil_append] at ih2 ⊢
      rw [splitTwoSpace, if_neg (fun hh => hc hh.1)]
      rw [show splitTwoSpace (' ' :: ' ' :: r) = [] :: splitTwoSpace r from by
        rw [splitTwoSpace, if_pos ⟨rfl, rfl⟩]]
      rfl
    | cons d w2 =>
      simp only [List.cons_append] at ih2 ⊢
      rw [splitTwoSpace, if_neg (fun hh => hc hh.1)]
      rw [ih2]
      rfl

/- ### Lemmas about digit stripping -/

/-- Digit removal distributes over concatenation. -/
lemma removeDigits_append (a b : Str) :
    removeDigits (a ++ b) = removeDigits a ++ removeDigits b := by
  simp [removeDigits]

/-- A leading space survives digit removal. -/
lemma removeDigits_cons_space (cs : Str) :
    removeDigits (' ' :: cs) = ' ' :: removeDigits cs := rfl

/-- Digit removal distributes over the single-space join. -/
lemma removeDigits_join (tokens : List Str) :
    removeDigits (joinSpaces tokens) = joinSpaces (tokens.map removeDigits) := by
  induction tokens with
  | nil => rfl
  | cons t ts ih =>
    cases ts with
    | nil => rfl
    | cons t2 ts2 =>
      have h1 : joinSpaces (t :: t2 :: ts2) = t ++ ' ' :: joinSpaces (t2 :: ts2) := rfl
      rw [h1, removeDigits_append, removeDigits_cons_space, ih]
      rfl

/-- Digit removal preserves the absence of spaces. -/
lemma no_space_removeDigits (cs : Str) (h : ' ' ∉ cs) : ' ' ∉ removeDigits cs :=
  fun hm => h (List.mem_filter.mp hm).1

/-- On a token whose digit-free part carries only a trailing run of
digits, the global digit removal of the source agrees with stripping the
trailing stress digits. -/
lemma removeDigits_eq_dropTrailing (t : Str)
    (h : ∀ c ∈ dropTrailingDigits t, c.isDigit = false) :
    removeDigits t = dropTrailingDigits t := by
  have hdecomp : t = dropTrailingDigits t ++ (t.reverse.takeWhile Char.isDigit).reverse := by
    unfold dropTrailingDigits
    rw [← List.reverse_append, List.takeWhile_append_dropWhile, List.reverse_reverse]
  calc removeDigits t
      = removeDigits (dropTrailingDigits t ++ (t.reverse.takeWhile Char.isDigit).reverse) := by
        conv_lhs => rw [hdecomp]
    _ = removeDigits (dropTrailingDigits t)
        ++ removeDigits ((t.reverse.takeWhile Char.isDigit).reverse) :=
        removeDigits_append _ _
    _ = dropTrailingDigits t ++ [] := by
        rw [show removeDigits (dropTrailingDigits t) = dropTrailingDigits t from
          List.filter_eq_self.mpr (fun c hc => by simp [h c hc])]
        rw [show removeDigits ((t.reverse.takeWhile Char.isDigit).reverse) = [] from
          List.filter_eq_nil_iff.mpr (fun c hc => by
            have hd := List.mem_takeWhile_imp (List.mem_reverse.mp hc)
            simp [hd])]
    _ = dropTrailingDigits t := List.append_nil _

/-- Evaluation of `parseLine` once the two-space split is known to have
exactly two pieces. -/
lemma parseLine_eq (line word field : Str) (hne : line ≠ [])
    (hcomment : startsWithSemis line = false)
    (hsplit : splitTwoSpace line = [word, field]) :
    parseLine line
      = some (word, (splitSpace (removeDigits field)).filter (fun p => p ≠ [])) := by
  unfold parseLine
  rw [if_neg (by simp [hne, hcomment]), hsplit]

/-- C7 (amended): a non-comment line formed of a nonempty space-free word,
a separator of exactly two or three spaces, and nonempty space-free
phoneme tokens carrying only trailing stress digits, is stored as the
word mapped to its tokens with the trailing digits stripped.  A
separator of four or more spaces defeats the two-piece split and the
line is skipped (see the counterexample). -/
theorem parseLine_wellformed_record (word : Str) (k : Nat) (tokens : List Str)
    (hword : word ≠ []) (hwsp : ' ' ∉ word)
    (hk : k = 2 ∨ k = 3)
    (htokens : tokens ≠ [])
    (htok : ∀ t ∈ tokens, ' ' ∉ t ∧ dropTrailingDigits t ≠ []
        ∧ ∀ c ∈ dropTrailingDigits t, c.isDigit = false)
    (hcomment : startsWithSemis (word ++ (List.replicate k ' ' ++ joinSpaces tokens))
        = false) :
    parseLine (word ++ (List.replicate k ' ' ++ joinSpaces tokens))
      = some (word, tokens.map dropTrailingDigits) := by
  have htokne : ∀ t ∈ tokens, t ≠ [] := by
    intro t ht he
    have h2 := (htok t ht).2.1
    rw [he] at h2
    exact h2 rfl
  have htoksp : ∀ t ∈ tokens, ' ' ∉ t := fun t ht => (htok t ht).1
  have hpair : ∀ t ∈ tokens, t ≠ [] ∧ ' ' ∉ t := fun t ht => ⟨htokne t ht, htoksp t ht⟩
  have hline_ne : ∀ rest : Str, word ++ rest ≠ [] := by
    intro rest hc
    rw [List.append_eq_nil] at hc
    exact hword hc.1
  have hfield : (splitSpace (removeDigits (joinSpaces tokens))).filter (fun p => p ≠ [])
      = tokens.map dropTrailingDigits := by
    rw [removeDigits_join]
    rw [splitSpace_join (tokens.map removeDigits)
      (by
        intro hc
        rw [List.map_eq_nil_iff] at hc
        exact htokens hc)
      (fun x hx => by
        obtain ⟨t, ht, rfl⟩ := List.mem_map.mp hx
        exact no_space_removeDigits t (htoksp t ht))]
    have hmap : tokens.map removeDigits = tokens.map dropTrailingDigits :=
      List.map_congr_left (fun t ht => removeDigits_eq_dropTrailing t (htok t ht).2.2)
    rw [hmap]
    apply List.filter_eq_self.mpr
    intro a ha
    obtain ⟨t, ht, rfl⟩ := List.mem_map.mp ha
    simpa using (htok t ht).2.1
  rcases hk with rfl | rfl
  · have hrep : (List.replicate 2 ' ' : Str) ++ joinSpaces tokens
        = ' ' :: ' ' :: joinSpaces tokens := rfl
    have hsplit : splitTwoSpace (word ++ (List.replicate 2 ' ' ++ joinSpaces tokens))
        = [word, joinSpaces tokens] := by
      rw [hrep, splitTwoSpace_word (joinSpaces tokens) word hwsp,
        splitTwoSpace_no_double (joinSpaces tokens) (join_no_double tokens hpair)]
    rw [parseLine_eq _ word (joinSpaces tokens) (hline_ne _) hcomment hsplit, hfield]
  · have hrep : (List.replicate 3 ' ' : Str) ++ joinSpaces tokens
        = ' ' :: ' ' :: (' ' :: joinSpaces tokens) := rfl
    have hmid : hasDoubleSpace (' ' :: joinSpaces tokens) = false := by
      have hrec := join_no_double tokens hpair
      cases tokens with
      | nil => exact absurd rfl htokens
      | cons t0 ts0 =>
        have ht0 := hpair t0 (List.mem_cons_self t0 ts0)
        cases t0 with
        | nil => exact absurd rfl ht0.1
        | cons x t0tail =>
          obtain ⟨r, hr⟩ := join_head_cons x t0tail ts0
          rw [hr] at hrec ⊢
          have hx : (x == ' ') = false := by
            simp only [beq_eq_false_iff_ne, ne_eq]
            exact fun he => ht0.2 (he ▸ List.mem_cons_self x _)
          rw [hasDoubleSpace]
          simp [hx, hrec]
    have hsplit : splitTwoSpace (word ++ (List.replicate 3 ' ' ++ joinSpaces tokens))
        = [word, ' ' :: joinSpaces tokens] := by
      rw [hrep, splitTwoSpace_word (' ' :: joinSpaces tokens) word hwsp,
        splitTwoSpace_no_double (' ' :: joinSpaces tokens) hmid]
    rw [parseLine_eq _ word (' ' :: joinSpaces tokens) (hline_ne _) hcomment hsplit]
    rw [removeDigits_cons_space]
    rw [show splitSpace (' ' :: removeDigits (joinSpaces tokens))
        = [] :: splitSpace (removeDigits (joinSpaces tokens)) from by
      rw [splitSpace, if_pos rfl]]
    rw [show ([] :: splitSpace (removeDigits (joinSpaces tokens))).filter (fun p => p ≠ [])
        = (splitSpace (removeDigits (joinSpaces tokens))).filter (fun p => p ≠ []) from by
      simp]
    rw [hfield]

/-- Witness for the amended C7: the word W, a two-space separator, and the
tokens A1 and B parse to W mapped to A and B. -/
theorem parseLine_wellformed_record_witness :
    parseLine (['W'] ++ (List.replicate 2 ' ' ++ joinSpaces [['A', '1'], ['B']]))
      = some (['W'], ([['A', '1'], ['B']] : List Str).map dropTrailingDigits) :=
  parseLine_wellformed_record ['W'] 2 [['A', '1'], ['B']]
    (by decide) (by decide) (Or.inl rfl) (by decide) (by decide) (by decide)

/-- Counterexample to C7 as stated: with a four-space separator the split
has three pieces, so the record is skipped and nothing is stored. -/
theorem parseLine_four_space_separator_skipped :
    parseLine (['A', 'B'] ++ (List.replicate 4 ' ' ++ joinSpaces [['C', 'D']])) = none
    ∧ parseLine (['A', 'B'] ++ (List.replicate 4 ' ' ++ joinSpaces [['C', 'D']]))
      ≠ some (['A', 'B'], [['C', 'D']]) := by
  decide

/- ### Duplicate spellings in the dictionary source -/

/-- C8 (amended): when the same spelling occurs on two data lines, the
lexicon map keeps the last occurrence, but the candidate word list gains
one entry per qualifying occurrence: duplicates are not removed. -/
theorem lexicon_last_write_wins_and_wordlist_appends (freq : List Str) (st : LoadState)
    (l1 l2 : Str) (w : Str) (p1 p2 : List Str)
    (h1 : parseLine l1 = some (w, p1)) (h2 : parseLine l2 = some (w, p2)) :
    (processLines freq st [l1, l2]).dictionary w = some p2
    ∧ (processLines freq st [l1, l2]).wordlist
      = (st.wordlist ++ (if p1.length = 5 ∧ w ∈ freq then [w] else []))
        ++ (if p2.length = 5 ∧ w ∈ freq then [w] else []) := by
  have hp : processLines freq st [l1, l2] = processLine freq (processLine freq st l1) l2 :=
    rfl
  rw [hp]
  unfold processLine
  rw [h1, h2]
  constructor
  · simp
  · by_cases hA : p1.length = 5 ∧ w ∈ freq <;>
      by_cases hB : p2.length = 5 ∧ w ∈ freq <;>
      simp [hA, hB] <;>
      (try split_ifs <;> simp)

/-- Witness for the amended C8: the same line twice, each occurrence
qualifying, appends the word twice. -/
theorem lexicon_last_write_wins_and_wordlist_appends_witness :
    (processLines [['A', 'B']] initLoadState [dictLineExample, dictLineExample]).dictionary
        ['A', 'B'] = some [['C'], ['D'], ['E'], ['F'], ['G']]
    ∧ (processLines [['A', 'B']] initLoadState [dictLineExample, dictLineExample]).wordlist
      = (initLoadState.wordlist
          ++ (if ([['C'], ['D'], ['E'], ['F'], ['G']] : List Str).length = 5
                ∧ (['A', 'B'] : Str) ∈ [['A', 'B']] then [['A', 'B']] else []))
        ++ (if ([['C'], ['D'], ['E'], ['F'], ['G']] : List Str).length = 5
                ∧ (['A', 'B'] : Str) ∈ [['A', 'B']] then [['A', 'B']] else []) :=
  lexicon_last_write_wins_and_wordlist_appends [['A', 'B']] initLoadState
    dictLineExample dictLineExample ['A', 'B']
    [['C'], ['D'], ['E'], ['F'], ['G']] [['C'], ['D'], ['E'], ['F'], ['G']] rfl rfl

/-- Counterexample to C8 as stated: a word spelled identically on two
qualifying data lines appears twice in the candidate word list. -/
theorem candidate_list_contains_duplicate :
    2 ≤ List.count (['A', 'B'] : Str)
        ((processLines [['A', 'B']] initLoadState [dictLineExample, dictLineExample]).wordlist)
    := by
  decide

/- ### Empty candidate list at load completion -/

/-- C9 (amended): when loading completes with an empty candidate list, the
code still calls startGame unconditionally; target selection fails and
the round setup crashes, and no DataLoadError-style outcome is
produced — the source has no emptiness check. -/
theorem finishLoading_empty_wordlist_crashes (st : LoadState) (idx : Nat)
    (h : st.wordlist = []) :
    (finishLoading st idx).2 = LoadOutcome.crashed
    ∧ (finishLoading st idx).2 ≠ LoadOutcome.dataLoadError := by
  have hfl : (finishLoading st idx).2 = startGame st.dictionary st.wordlist idx := rfl
  rw [hfl, h]
  have hsg : startGame st.dictionary [] idx = LoadOutcome.crashed := by
    unfold startGame
    cases idx <;> rfl
  rw [hsg]
  exact ⟨rfl, by decide⟩

/-- Witness for the amended C9: a loader state with phonemes but no
candidate words crashes in startGame. -/
theorem finishLoading_empty_wordlist_crashes_witness :
    (finishLoading emptyWordlistLoad 3).2 = LoadOutcome.crashed
    ∧ (finishLoading emptyWordlistLoad 3).2 ≠ LoadOutcome.dataLoadError :=
  finishLoading_empty_wordlist_crashes emptyWordlistLoad 3 rfl

/-- Counterexample to C9 as stated: with an empty candidate list the load
does not stop with a DataLoadError-style outcome; startGame is invoked
and its target selection crashes. -/
theorem finishLoading_empty_no_dataLoadError :
    (finishLoading initLoadState 0).2 ≠ LoadOutcome.dataLoadError
    ∧ (finishLoading initLoadState 0).2 = LoadOutcome.crashed := by
  decide

/- ### Stored phonemes are non-empty and digit-free -/

/-- The results of the single-space split never form an empty list of
pieces. -/
lemma splitSpace_ne_nil (cs : Str) : splitSpace cs ≠ [] := by
  induction cs with
  | nil => simp [splitSpace]
  | cons c cs ih =>
    rw [splitSpace]
    by_cases hc : c = ' '
    · simp [hc]
    · rw [if_neg hc]
      cases hsp : splitSpace cs with
      | nil => exact absurd hsp ih
      | cons t ts => simp [consHead]

/-- Every character of a single-space piece comes from the split string. -/
lemma mem_splitSpace_subset (c : Char) :
    ∀ (cs : Str) (p : Str), p ∈ splitSpace cs → c ∈ p → c ∈ cs := by
  intro cs
  induction cs with
  | nil =>
    intro p hp hc
    simp [splitSpace] at hp
    subst hp
    simp at hc
  | cons a cs ih =>
    intro p hp hc
    rw [splitSpace] at hp
    by_cases ha : a = ' '
    · rw [if_pos ha] at hp
      rcases List.mem_cons.mp hp with rfl | hp2
      · simp at hc
      · exact List.mem_cons_of_mem a (ih p hp2 hc)
    · rw [if_neg ha] at hp
      cases hsp : splitSpace cs with
      | nil => exact absurd hsp (splitSpace_ne_nil cs)
      | cons t ts =>
        rw [hsp] at hp
        rcases List.mem_cons.mp (by simpa [consHead] using hp) with rfl | hp2
        · rcases List.mem_cons.mp hc with rfl | hc2
          · exact List.mem_cons_self _ _
          · exact List.mem_cons_of_mem a
              (ih t (by rw [hsp]; exact List.mem_cons_self t ts) hc2)
        · exact List.mem_cons_of_mem a
            (ih p (by rw [hsp]; exact List.mem_cons_of_mem t hp2) hc)

/-- Membership after folding JavaScript Set.add over a token list comes
from the initial set or from the tokens. -/
lemma mem_foldl_setAdd :
    ∀ (ps : List Str) (s : List Str) (p : Str),
      p ∈ ps.foldl setAdd s → p ∈ s ∨ p ∈ ps := by
  intro ps
  induction ps with
  | nil => intro s p hp; exact Or.inl hp
  | cons a ps ih =>
    intro s p hp
    rcases ih (setAdd s a) p hp with hs | hps
    · unfold setAdd at hs
      by_cases ha : a ∈ s
      · rw [if_pos ha] at hs
        exact Or.inl hs
      · rw [if_neg ha] at hs
        rcases List.mem_append.mp hs with hl | hl
        · exact Or.inl hl
        · simp at hl
          subst hl
          exact Or.inr (List.mem_cons_self _ _)
    · exact Or.inr (List.mem_cons_of_mem a hps)

/-- C10: every phoneme stored in a parsed lexicon entry is a non-empty
digit-free token, and every symbol the line adds to the phoneme alphabet
is one of those tokens. -/
theorem stored_phonemes_nonempty_digit_free (line w : Str) (ps : List Str)
    (h : parseLine line = some (w, ps)) :
    (∀ p ∈ ps, p ≠ [] ∧ ∀ c ∈ p, c.isDigit = false)
    ∧ (∀ (freq : List Str) (st : LoadState) (p : Str),
        p ∈ (processLine freq st line).phonemeSet → p ∈ st.phonemeSet ∨ p ∈ ps) := by
  have hps : ∃ field : Str,
      ps = (splitSpace (removeDigits field)).filter (fun p => p ≠ []) := by
    unfold parseLine at h
    by_cases hskip : line = [] ∨ startsWithSemis line
    · rw [if_pos hskip] at h
      simp at h
    · rw [if_neg hskip] at h
      cases hsp : splitTwoSpace line with
      | nil => rw [hsp] at h; simp at h
      | cons a tail =>
        cases tail with
        | nil => rw [hsp] at h; simp at h
        | cons b tail2 =>
          cases tail2 with
          | nil =>
            rw [hsp] at h
            simp only [Option.some.injEq, Prod.mk.injEq] at h
            exact ⟨b, h.2.symm⟩
          | cons c rest => rw [hsp] at h; simp at h
  obtain ⟨field, rfl⟩ := hps
  constructor
  · intro p hp
    have hmem := List.mem_filter.mp hp
    refine ⟨of_decide_eq_true hmem.2, ?_⟩
    intro c hc
    have hcf : c ∈ removeDigits field :=
      mem_splitSpace_subset c (removeDigits field) p hmem.1 hc
    have := (List.mem_filter.mp hcf).2
    simpa using this
  · intro freq st p hp
    have hpl : (processLine freq st line).phonemeSet
        = ((splitSpace (removeDigits field)).filter (fun p => p ≠ [])).foldl setAdd
            st.phonemeSet := by
      unfold processLine
      rw [h]
    rw [hpl] at hp
    exact mem_foldl_setAdd _ _ _ hp

/-- Witness for C10 at the line AB, two spaces, C1 D: the stored tokens
are C and D. -/
theorem stored_phonemes_nonempty_digit_free_witness :
    (∀ p ∈ [['C'], ['D']], p ≠ [] ∧ ∀ c ∈ p, Char.isDigit c = false)
    ∧ (∀ (freq : List Str) (st : LoadState) (p : Str),
        p ∈ (processLine freq st ['A', 'B', ' ', ' ', 'C', '1', ' ', 'D']).phonemeSet
          → p ∈ st.phonemeSet ∨ p ∈ [['C'], ['D']]) :=
  stored_phonemes_nonempty_digit_free ['A', 'B', ' ', ' ', 'C', '1', ' ', 'D']
    ['A', 'B'] [['C'], ['D']] rfl

end Phonle
